import Mathlib

/-!
Verification development for the streaming ingestion core of the soccer-mind
browser client (src/app/page.tsx).  The TypeScript code is shallowly embedded:

* JSON values are modelled by the inductive `Json`; JavaScript objects are
  association lists in insertion order (a real JS object never holds a
  duplicate key, and object-literal construction keeps the first position of
  an overwritten key, which `objInsert` reproduces).  JSON numbers are
  modelled as integers; floating-point literals are outside the model.
* `JSON.parse` is modelled by `parseC`, a fuel-based recursive-descent parser
  over the character list of the payload (basic escapes; `\uXXXX` escapes and
  fraction/exponent number forms are outside the model).
* The `TextDecoder` with `stream: true` is modelled by `utf8Decode`, which
  greedily decodes complete UTF-8 sequences (the lead byte determines the
  length) and carries incomplete trailing bytes to the next chunk, as the
  platform decoder does on valid input.
* React `useState` state is the record `AppState`; every `setX` call of the
  source becomes a functional update.
-/

/-- JSON values.  JS `undefined` is represented by `Option.none` at use
sites; `Json.null` is JSON `null`. -/
inductive Json where
  | null : Json
  | bool : Bool → Json
  | num : Int → Json
  | str : String → Json
  | arr : List Json → Json
  | obj : List (String × Json) → Json

/-- JavaScript truthiness of a JSON value (`NaN` cannot arise here). -/
def Json.truthy : Json → Bool
  | .null => false
  | .bool b => b
  | .num n => n != 0
  | .str s => s != ""
  | .arr _ => true
  | .obj _ => true

/-- First binding of a key in an association list (JS objects never hold
duplicate keys, so first = only). -/
def lookupKey : List (String × Json) → String → Option Json
  | [], _ => none
  | (k', v) :: rest, k => if k' == k then some v else lookupKey rest k

/-- JS member access `j.k` on a parsed JSON value: `undefined` (`none`)
unless `j` is an object holding the key.  Access on `Json.null` throws in
JS; callers model that separately. -/
def Json.getField : Json → String → Option Json
  | .obj kvs, k => lookupKey kvs k
  | _, _ => none

/-- JS optional-chained access `o?.k` where `o` may be `undefined`. -/
def jsGet (o : Option Json) (k : String) : Option Json :=
  match o with
  | some j => j.getField k
  | none => none

/-- Truthiness of a possibly-`undefined` value (JS boolean context). -/
def truthyO : Option Json → Bool
  | some v => v.truthy
  | none => false

/-- JS `a || b` on possibly-`undefined` values. -/
def jsOr (a b : Option Json) : Option Json :=
  match a with
  | some v => if v.truthy then some v else b
  | none => b

/-- JS `a || d` with a definite default. -/
def orDefault (a : Option Json) (d : Json) : Json :=
  match a with
  | some v => if v.truthy then v else d
  | none => d

/-- JS `a ?? b` (nullish coalescing) on possibly-`undefined` values. -/
def jsCoalesce (a b : Option Json) : Option Json :=
  match a with
  | some Json.null => b
  | some v => some v
  | none => b

/-- Strict equality test `o === "s"` against a string literal. -/
def isStrO (o : Option Json) (s : String) : Bool :=
  match o with
  | some (Json.str t) => t == s
  | _ => false

/-- Strict equality test `o === false`. -/
def isFalseO : Option Json → Bool
  | some (Json.bool false) => true
  | _ => false

/-- Whether a possibly-`undefined` value is an array (`Array.isArray`). -/
def isArrO : Option Json → Bool
  | some (Json.arr _) => true
  | _ => false

/-- Whether a possibly-`undefined` value is a JS object (S `typeof`-object,
non-null, non-array sense used for spreading keyed fields). -/
def isObjO : Option Json → Bool
  | some (Json.obj _) => true
  | _ => false

/-- JS object key assignment: overwrite the first occurrence in place, or
append a new binding at the end. -/
def objInsert : List (String × Json) → String → Json → List (String × Json)
  | [], k, v => [(k, v)]
  | (k', v') :: rest, k, v =>
    if k' == k then (k, v) :: rest else (k', v') :: objInsert rest k v

/-- Enumerable own-property pairs produced by spreading a value: objects give
their bindings, strings and arrays give index-keyed entries, primitives give
nothing (`{...null}`, `{...5}`, `{...undefined}` are all `{}`). -/
def rawPairs : Json → List (String × Json)
  | .obj kvs => kvs
  | .str s => (s.data.enum).map (fun p => (toString p.1, Json.str (String.mk [p.2])))
  | .arr l => (l.enum).map (fun p => (toString p.1, p.2))
  | _ => []

/-- JS object spread `{...j}`: iterate the own properties, assigning each in
turn (duplicate keys collapse, first position kept). -/
def jsSpreadPairs (j : Json) : List (String × Json) :=
  (rawPairs j).foldl (fun acc p => objInsert acc p.1 p.2) []

/-- Spread of a possibly-`undefined` value (`{...undefined}` is `{}`). -/
def jsSpreadO : Option Json → List (String × Json)
  | some j => jsSpreadPairs j
  | none => []

/- ----------------------------------------------------------------- -/
/- A model of `JSON.parse` over the payload's character list.         -/
/- ----------------------------------------------------------------- -/

/-- JSON insignificant whitespace. -/
def isWsC (c : Char) : Bool :=
  c == ' ' || c == '\t' || c == '\n' || c == '\r'

def skipWsC (cs : List Char) : List Char := cs.dropWhile isWsC

/-- JS `String.prototype.trim` on the character list (core whitespace). -/
def trimC (l : List Char) : List Char :=
  ((l.dropWhile isWsC).reverse.dropWhile isWsC).reverse

def lbraceC : Char := Char.ofNat 123

def rbraceC : Char := Char.ofNat 125

/-- String-literal body: consume until the closing quote, handling the basic
escapes (the `\uXXXX` form is outside the model). -/
def parseStrAux : List Char → List Char → Option (String × List Char)
  | _, [] => none
  | acc, c :: rest =>
    if c == '"' then some (String.mk acc.reverse, rest)
    else if c == '\\' then
      match rest with
      | [] => none
      | e :: rest2 =>
        if e == '"' then parseStrAux ('"' :: acc) rest2
        else if e == '\\' then parseStrAux ('\\' :: acc) rest2
        else if e == '/' then parseStrAux ('/' :: acc) rest2
        else if e == 'n' then parseStrAux ('\n' :: acc) rest2
        else if e == 't' then parseStrAux ('\t' :: acc) rest2
        else if e == 'r' then parseStrAux ('\r' :: acc) rest2
        else if e == 'b' then parseStrAux (Char.ofNat 8 :: acc) rest2
        else if e == 'f' then parseStrAux (Char.ofNat 12 :: acc) rest2
        else none
    else if c.toNat < 32 then none
    else parseStrAux (c :: acc) rest

/-- Accumulate a run of decimal digits. -/
def digitsLoop : List Char → Nat → Nat × List Char
  | [], acc => (acc, [])
  | c :: rest, acc =>
    if c.isDigit then digitsLoop rest (acc * 10 + (c.toNat - 48)) else (acc, c :: rest)

/-- After an integer literal, reject the fraction/exponent forms that the
model leaves out. -/
def numBreakOk : List Char → Bool
  | [] => true
  | c :: _ => !(c == '.' || c == 'e' || c == 'E')

mutual

def parseValue : Nat → List Char → Option (Json × List Char)
  | 0, _ => none
  | f + 1, cs =>
    match skipWsC cs with
    | [] => none
    | c :: rest =>
      if c == lbraceC then
        match skipWsC rest with
        | c2 :: rest2 =>
          if c2 == rbraceC then some (Json.obj [], rest2)
          else parseMembers f (c2 :: rest2) []
        | [] => none
      else if c == '[' then
        match skipWsC rest with
        | c2 :: rest2 =>
          if c2 == ']' then some (Json.arr [], rest2)
          else parseItems f (c2 :: rest2) []
        | [] => none
      else if c == '"' then
        match parseStrAux [] rest with
        | some (s, rest2) => some (Json.str s, rest2)
        | none => none
      else if c == 't' then
        match rest with
        | 'r' :: 'u' :: 'e' :: rest2 => some (Json.bool true, rest2)
        | _ => none
      else if c == 'f' then
        match rest with
        | 'a' :: 'l' :: 's' :: 'e' :: rest2 => some (Json.bool false, rest2)
        | _ => none
      else if c == 'n' then
        match rest with
        | 'u' :: 'l' :: 'l' :: rest2 => some (Json.null, rest2)
        | _ => none
      else if c == '-' then
        match rest with
        | d :: _ =>
          if d.isDigit then
            match digitsLoop rest 0 with
            | (n, rest2) =>
              if numBreakOk rest2 then some (Json.num (-(Int.ofNat n)), rest2) else none
          else none
        | [] => none
      else if c.isDigit then
        match digitsLoop (c :: rest) 0 with
        | (n, rest2) =>
          if numBreakOk rest2 then some (Json.num (Int.ofNat n), rest2) else none
      else none

def parseMembers : Nat → List Char → List (String × Json) → Option (Json × List Char)
  | 0, _, _ => none
  | f + 1, cs, acc =>
    match skipWsC cs with
    | '"' :: rest =>
      match parseStrAux [] rest with
      | some (k, rest2) =>
        match skipWsC rest2 with
        | ':' :: rest3 =>
          match parseValue f rest3 with
          | some (v, rest4) =>
            match skipWsC rest4 with
            | ',' :: rest5 => parseMembers f rest5 (objInsert acc k v)
            | c5 :: rest5 =>
              if c5 == rbraceC then some (Json.obj (objInsert acc k v), rest5) else none
            | [] => none
          | none => none
        | _ => none
      | none => none
    | _ => none

def parseItems : Nat → List Char → List Json → Option (Json × List Char)
  | 0, _, _ => none
  | f + 1, cs, acc =>
    match parseValue f cs with
    | some (v, rest) =>
      match skipWsC rest with
      | ',' :: rest2 => parseItems f rest2 (acc ++ [v])
      | ']' :: rest2 => some (Json.arr (acc ++ [v]), rest2)
      | _ => none
    | none => none

end

/-- Model of `JSON.parse` on a payload: parse one value, then require only
whitespace to remain.  The fuel is generous; every recursive call follows
the consumption of at least one character. -/
def parseC (cs : List Char) : Option Json :=
  match parseValue (2 * cs.length + 2) cs with
  | some (j, rest) => if (skipWsC rest).isEmpty then some j else none
  | none => none

/- ----------------------------------------------------------------- -/
/- Events, state, and the classifier / reducer of processSSELine.     -/
/- ----------------------------------------------------------------- -/

/-- One entry of the `thinking` progress log (the object literal pushed by
`setThinking` in `processSSELine`). -/
structure ThinkingEntry where
  stage : Json
  message : Json
  status : Json

/-- A classified stream event: either a terminal result (carrying the raw
`parsed.data` field, possibly `undefined`) or a progress event with the
field defaults already applied at the push site. -/
inductive SSEEvent where
  | resultEv (data : Option Json)
  | thinkingEv (stage message status : Json)

/-- Observable React state of the page component (the pieces touched by the
streaming core). -/
structure AppState where
  thinking : List ThinkingEntry
  apiData : Option Json
  error : Option String
  loading : Bool
  streamActive : Bool

/-- JS `arr.slice(-k)`: the suffix of the `k` most recent elements. -/
def lastN (k : Nat) (l : List α) : List α := l.drop (l.length - k)

/-- The generic transport-failure message set in `handleSubmit`'s catch. -/
def genericMsg : String := "No live updates available. Try another query."

/-- The fallback application-error message of the `success === false` branch. -/
def unsuccessfulMsg : String := "The API returned an unsuccessful response."

/-- `normalizeResponse` from src/app/page.tsx lines 179-184:
`{...data, summary: data?.summary ?? data?.answer ?? null,
  highlights: Array.isArray(data?.highlights) ? data.highlights : [],
  sources: Array.isArray(data?.sources) ? data.sources : []}`. -/
def normalizeResponse (data : Option Json) : Json :=
  let summaryV := (jsCoalesce (jsGet data "summary")
    (jsCoalesce (jsGet data "answer") (some Json.null))).getD Json.null
  let highlightsV := match jsGet data "highlights" with
    | some (Json.arr l) => Json.arr l
    | _ => Json.arr []
  let sourcesV := match jsGet data "sources" with
    | some (Json.arr l) => Json.arr l
    | _ => Json.arr []
  Json.obj (objInsert (objInsert (objInsert (jsSpreadO data) "summary" summaryV)
    "highlights" highlightsV) "sources" sourcesV)

/-- The value stored into `apiData` by the `type === "result"` branch of
`processSSELine`: the normalized data, with the fallback error message
spliced in when `success === false`. -/
def resultValue (d : Option Json) : Json :=
  let responseData := normalizeResponse d
  if isFalseO (responseData.getField "success") then
    Json.obj (objInsert (jsSpreadPairs responseData) "error"
      (orDefault (responseData.getField "error") (Json.str unsuccessfulMsg)))
  else responseData

/-- Event classification of a successfully parsed non-null payload (the
branching structure of `processSSELine`). -/
def classifyJson (parsed : Json) : Option SSEEvent :=
  let dataF := parsed.getField "data"
  let stageLike := jsOr (parsed.getField "stage") (dataF.bind (fun d => d.getField "stage"))
  let statusLike := jsOr (parsed.getField "status") (dataF.bind (fun d => d.getField "status"))
  let messageLike := jsOr (parsed.getField "message") (dataF.bind (fun d => d.getField "message"))
  if isStrO (parsed.getField "type") "result" then
    some (SSEEvent.resultEv dataF)
  else if isStrO (parsed.getField "type") "thinking" || truthyO stageLike then
    some (SSEEvent.thinkingEv (orDefault stageLike (Json.str "thinking"))
      (orDefault messageLike (Json.str "")) (orDefault statusLike (Json.str "info")))
  else none

/-- The end-of-stream sentinel `"[DONE]"` as characters. -/
def doneMarker : List Char := ['[', 'D', 'O', 'N', 'E', ']']

/-- The record marker `"data: "` as characters. -/
def dataMarker : List Char := ['d', 'a', 't', 'a', ':', ' ']

/-- Classification of one raw payload (the argument of `processSSELine`):
the sentinel, blank payloads, unparsable payloads, and a parsed `null`
(member access on `null` throws and is swallowed by the catch) are all
ignored. -/
def classifyRecord (data : List Char) : Option SSEEvent :=
  if data == doneMarker || trimC data == [] then none
  else match parseC data with
    | none => none
    | some Json.null => none
    | some parsed => classifyJson parsed

/-- State transition for one classified event (the `setApiData` /
`setThinking` calls of `processSSELine`). -/
def applyEvent (s : AppState) (e : SSEEvent) : AppState :=
  match e with
  | SSEEvent.resultEv d => { s with apiData := some (resultValue d) }
  | SSEEvent.thinkingEv st ms stt =>
    { s with thinking := lastN 12 (s.thinking ++ [⟨st, ms, stt⟩]) }

/-- Direct translation of `processSSELine` (src/app/page.tsx lines 428-458)
acting on the component state. -/
def processSSELine (s : AppState) (data : List Char) : AppState :=
  if data == doneMarker || trimC data == [] then s
  else match parseC data with
    | none => s
    | some Json.null => s
    | some parsed =>
      let dataF := parsed.getField "data"
      let stageLike := jsOr (parsed.getField "stage") (dataF.bind (fun d => d.getField "stage"))
      let statusLike := jsOr (parsed.getField "status") (dataF.bind (fun d => d.getField "status"))
      let messageLike := jsOr (parsed.getField "message") (dataF.bind (fun d => d.getField "message"))
      if isStrO (parsed.getField "type") "result" then
        { s with apiData := some (resultValue dataF) }
      else if isStrO (parsed.getField "type") "thinking" || truthyO stageLike then
        { s with thinking := lastN 12 (s.thinking ++
          [⟨orDefault stageLike (Json.str "thinking"), orDefault messageLike (Json.str ""),
            orDefault statusLike (Json.str "info")⟩]) }
      else s

/-- Per-line step of the read loop: only lines starting with the record
marker are processed (`line.startsWith("data: ")` then `line.slice(6)`). -/
def lineStep (s : AppState) (line : List Char) : AppState :=
  if line.take 6 == dataMarker then processSSELine s (line.drop 6) else s

/-- Classifier view of one line of the stream. -/
def lineEvent (line : List Char) : Option SSEEvent :=
  if line.take 6 == dataMarker then classifyRecord (line.drop 6) else none

/-- String-to-card coercion of the `highlightCards` memo. -/
def coerceHighlight : Json → Json
  | Json.str s => Json.obj [("title", Json.str s)]
  | v => v

/-- `highlightCards` from src/app/page.tsx lines 466-474: empty unless
`apiData?.highlights` is truthy; arrays map strings to `{title}` cards. -/
def highlightCards (apiData : Option Json) : List Json :=
  let h := jsGet apiData "highlights"
  if truthyO h then
    match h with
    | some (Json.arr l) => l.map coerceHighlight
    | _ => []
  else []

/- ----------------------------------------------------------------- -/
/- The frame decoder: TextDecoder(stream) + line splitting + carry.   -/
/- ----------------------------------------------------------------- -/

/-- Length of the UTF-8 sequence announced by a lead byte (a stray
continuation or invalid byte counts as one; never reached on valid input). -/
def utf8Len (b : Nat) : Nat :=
  if b < 128 then 1
  else if b < 192 then 1
  else if b < 224 then 2
  else if b < 240 then 3
  else if b < 248 then 4
  else 1

/-- Code point of one complete UTF-8 sequence. -/
def decodePoint : List Nat → Nat
  | [b] => b
  | [b1, b2] => (b1 - 192) * 64 + (b2 - 128)
  | [b1, b2, b3] => (b1 - 224) * 4096 + (b2 - 128) * 64 + (b3 - 128)
  | [b1, b2, b3, b4] => (b1 - 240) * 262144 + (b2 - 128) * 4096 + (b3 - 128) * 64 + (b4 - 128)
  | _ => 65533

/-- Fuel-driven greedy UTF-8 decoding: emit every sequence whose bytes have
all arrived, return the incomplete trailing bytes as carry. -/
def utf8DecodeAux : Nat → List Nat → List Nat × List Nat
  | 0, bs => ([], bs)
  | _ + 1, [] => ([], [])
  | f + 1, b :: rest =>
    if rest.length + 1 < utf8Len b then ([], b :: rest)
    else
      let res := utf8DecodeAux f ((b :: rest).drop (utf8Len b))
      (decodePoint ((b :: rest).take (utf8Len b)) :: res.1, res.2)

/-- Model of `TextDecoder.decode(chunk, {stream: true})` on the pending
bytes: the decoded code points and the incomplete trailing carry. -/
def utf8Decode (bs : List Nat) : List Nat × List Nat :=
  utf8DecodeAux bs.length bs

/-- A byte stream is valid for the model when it decodes completely, leaving
no dangling partial character. -/
def validUtf8 (bs : List Nat) : Bool :=
  (utf8Decode bs).2.isEmpty

/-- JS `"…".split("\n")` on a character list: always at least one part
(the recursive result is never empty, so consing onto its head is total). -/
def splitNl : List Char → List (List Char)
  | [] => [[]]
  | c :: rest =>
    if c == '\n' then [] :: splitNl rest
    else (c :: (splitNl rest).headD []) :: (splitNl rest).tail

/-- Merge a carry into the head of the next split. -/
def mergeH (x : List Char) : List (List Char) → List (List Char)
  | [] => [x]
  | y :: ys => (x ++ y) :: ys

/-- Absence of the line terminator. -/
def nlFree (l : List Char) : Bool := l.all (fun c => !(c == '\n'))

/-- Decoder state of the read loop: the TextDecoder's byte carry and the
`buffer` string holding the final, possibly incomplete, line. -/
structure DecodeState where
  pending : List Nat
  lineBuf : List Char

def initDecode : DecodeState := ⟨[], []⟩

/-- One read-loop iteration (src/app/page.tsx lines 407-409): decode the
chunk, append to the buffer, split on the terminator, keep the last part
(`buffer = lines.pop() || ""`), return the completed lines. -/
def feedChunk (st : DecodeState) (chunk : List Nat) : List (List Char) × DecodeState :=
  let dec := utf8Decode (st.pending ++ chunk)
  let parts := splitNl (st.lineBuf ++ dec.1.map Char.ofNat)
  (parts.dropLast, ⟨dec.2, parts.getLastD []⟩)

/-- Feed a list of chunks through the decoder, collecting classified events. -/
def runFrom : DecodeState → List (List Nat) → List SSEEvent × DecodeState
  | st, [] => ([], st)
  | st, c :: cs =>
    let fed := feedChunk st c
    let rest := runFrom fed.2 cs
    (fed.1.filterMap lineEvent ++ rest.1, rest.2)

/-- Events of the done-branch (lines 394-404): if the remaining buffer trims
non-empty, split it and process its marker lines. -/
def flushEvents (st : DecodeState) : List SSEEvent :=
  if trimC st.lineBuf == [] then [] else (splitNl st.lineBuf).filterMap lineEvent

/-- The ordered classified-event sequence produced by feeding the chunks
through the read-loop decoder and classifier, including the final flush. -/
def runStream (chunks : List (List Nat)) : List SSEEvent :=
  let r := runFrom initDecode chunks
  r.1 ++ flushEvents r.2

/-- UTF-8 bytes of an ASCII string (used to build concrete streams). -/
def asciiBytes (s : String) : List Nat := s.data.map Char.toNat

/- ----------------------------------------------------------------- -/
/- One session of handleSubmit: reset, read loop, terminal outcome.   -/
/- ----------------------------------------------------------------- -/

/-- Component state right after the synchronous prelude of `handleSubmit`
(`setLoading(true); setStreamActive(true); setError(null); setApiData(null);
setThinking([])`). -/
def initSession : AppState :=
  { thinking := [], apiData := none, error := none, loading := true, streamActive := true }

/-- How a session's read loop terminates: the reader reports `done`
(physical close), the awaited read rejects with `AbortError`
(caller cancellation), or it rejects with any other error. -/
inductive EndKind where
  | closed : EndKind
  | abortErr : EndKind
  | otherErr : EndKind

/-- The terminal statements of `handleSubmit`: the catch sets the generic
message only when the error is not an `AbortError`; both paths clear the
flags. -/
def endSession (s : AppState) (e : EndKind) : AppState :=
  match e with
  | EndKind.closed => { s with streamActive := false, loading := false }
  | EndKind.abortErr => { s with streamActive := false, loading := false }
  | EndKind.otherErr =>
    { s with error := some genericMsg, streamActive := false, loading := false }

/-- Process the completed lines of one feed against the state. -/
def feedState (s : AppState) (lines : List (List Char)) : AppState :=
  lines.foldl lineStep s

/-- The read loop: feed each chunk, process its completed lines. -/
def runLoop : DecodeState → AppState → List (List Nat) → DecodeState × AppState
  | st, s, [] => (st, s)
  | st, s, c :: cs =>
    let fed := feedChunk st c
    runLoop fed.2 (feedState s fed.1) cs

/-- A session whose stream closes gracefully after the given chunks: the
done-branch processes the leftover buffer when it trims non-empty, then the
flags are cleared and no error is set. -/
def sessionClosed (chunks : List (List Nat)) : AppState :=
  let r := runLoop initDecode initSession chunks
  let s2 := if trimC r.1.lineBuf == [] then r.2 else feedState r.2 (splitNl r.1.lineBuf)
  endSession s2 EndKind.closed

/-- A session cancelled by the caller after the given chunks were delivered:
the pending read rejects with `AbortError`, so the catch leaves `error`
untouched; the leftover buffer is never flushed. -/
def sessionAborted (chunks : List (List Nat)) : AppState :=
  endSession (runLoop initDecode initSession chunks).2 EndKind.abortErr

/-- A session whose stream fails mid-flight with a non-abort error after the
given chunks. -/
def sessionErrored (chunks : List (List Nat)) : AppState :=
  endSession (runLoop initDecode initSession chunks).2 EndKind.otherErr

/-- No terminal-result event in a list of classified events. -/
def resultFree (evs : List SSEEvent) : Bool :=
  evs.all (fun e => match e with | SSEEvent.resultEv _ => false | _ => true)

/- ----------------------------------------------------------------- -/
/- Overlapping sessions: the event-loop trace machine for isolation.  -/
/- ----------------------------------------------------------------- -/

/-- Atomic actions of the single-threaded event loop, tagged with the
generation (session) that performs them: the synchronous prelude of a new
submission, the processing of one completed line by a session's read loop,
and the three terminal continuations. -/
inductive SessAction where
  | start (g : Nat)
  | deliver (g : Nat) (line : List Char)
  | finishOk (g : Nat)
  | finishAbort (g : Nat)
  | finishErr (g : Nat)
deriving DecidableEq

def sessionOf : SessAction → Nat
  | SessAction.start g => g
  | SessAction.deliver g _ => g
  | SessAction.finishOk g => g
  | SessAction.finishAbort g => g
  | SessAction.finishErr g => g

def isStart : SessAction → Bool
  | SessAction.start _ => true
  | _ => false

/-- Unconditional effect of one action on the shared component state — the
source has no generation check; isolation must come from the transport
semantics below. -/
def stepState (s : AppState) (a : SessAction) : AppState :=
  match a with
  | SessAction.start _ => initSession
  | SessAction.deliver _ line => lineStep s line
  | SessAction.finishOk _ => { s with streamActive := false, loading := false }
  | SessAction.finishAbort _ => { s with streamActive := false, loading := false }
  | SessAction.finishErr _ =>
    { s with error := some genericMsg, streamActive := false, loading := false }

/-- Traces compatible with the transport and event-loop semantics, tracking
the currently live generation: `abort()` on submission stops chunk delivery,
so a superseded session can neither deliver lines nor finish through the
`done`/other-error paths — its pending read rejects with `AbortError`, which
is the only action a stale generation may still take. -/
inductive ValidFrom : Option Nat → List SessAction → Prop where
  | nil : ∀ c, ValidFrom c []
  | start : ∀ c g rest, ValidFrom (some g) rest → ValidFrom c (SessAction.start g :: rest)
  | deliver : ∀ g line rest, ValidFrom (some g) rest →
      ValidFrom (some g) (SessAction.deliver g line :: rest)
  | finishOk : ∀ g rest, ValidFrom (some g) rest → ValidFrom (some g) (SessAction.finishOk g :: rest)
  | finishErr : ∀ g rest, ValidFrom (some g) rest → ValidFrom (some g) (SessAction.finishErr g :: rest)
  | finishAbort : ∀ c g rest, ValidFrom c rest → ValidFrom c (SessAction.finishAbort g :: rest)

/-- The observable state the isolation claim speaks about: progress log,
result, error. -/
structure Obs where
  thinking : List ThinkingEntry
  apiData : Option Json
  error : Option String

def obs (s : AppState) : Obs := ⟨s.thinking, s.apiData, s.error⟩

/- ----------------------------------------------------------------- -/
/- Auxiliary predicates and spec-side definitions for the claims.     -/
/- ----------------------------------------------------------------- -/

/-- Well-formedness of an association list as a JS object: no duplicate
keys (every list reachable from a real JS object satisfies this). -/
def nodupKeys (kvs : List (String × Json)) : Prop := (kvs.map Prod.fst).Nodup

/-- Spec-side description of the amended field-extraction rule (claim C4):
the top-level field is used when truthy; a falsy or absent top-level field
defers to the nested field when truthy; otherwise the default applies. -/
def specFieldPrec (top nested : Option Json) (d : Json) : Json :=
  match top with
  | some v =>
    if v.truthy then v
    else match nested with
      | some w => if w.truthy then w else d
      | none => d
  | none =>
    match nested with
    | some w => if w.truthy then w else d
    | none => d

/- Concrete inputs used by counterexamples and witnesses. -/

/-- A parsed progress record whose top-level `stage` is present but empty
while the nested one differs. -/
def c4Rec : Json :=
  Json.obj [("type", Json.str "thinking"), ("stage", Json.str ""),
    ("data", Json.obj [("stage", Json.str "fetch")])]

/-- A byte stream of one progress record whose stage value holds a two-byte
UTF-8 character, followed by the sentinel record. -/
def c1Bytes : List Nat :=
  asciiBytes "data: \x7b\"type\":\"thinking\",\"stage\":\"" ++ [195, 169] ++
    asciiBytes "\"\x7d\ndata: [DONE]\n"

/-- A partition of `c1Bytes` splitting the two-byte character between its
lead and continuation byte. -/
def c1Chunks : List (List Nat) := [c1Bytes.take 35, c1Bytes.drop 35]

/-- One sentinel-only stream. -/
def c6Chunks : List (List Nat) := [asciiBytes "data: [DONE]\n"]

/-- One progress-only stream. -/
def c8Chunks : List (List Nat) :=
  [asciiBytes "data: \x7b\"type\":\"thinking\",\"stage\":\"a\"\x7d\n"]

/-- Trace of session 0 up to the point where session 1 is submitted. -/
def c2Pre : List SessAction :=
  [SessAction.start 0,
   SessAction.deliver 0 ("data: \x7b\"type\":\"thinking\",\"stage\":\"a\"\x7d".data)]

/-- Trace after session 1 starts: the stale session 0 can only observe its
abort, while session 1 delivers a line and finishes. -/
def c2Rest : List SessAction :=
  [SessAction.finishAbort 0,
   SessAction.deliver 1 ("data: \x7b\"type\":\"thinking\",\"stage\":\"b\"\x7d".data),
   SessAction.finishOk 1]


/- ----------------------------------------------------------------- -/
/- Lemmas: association-list object operations.                        -/
/- ----------------------------------------------------------------- -/

theorem nodupKeys_cons (a : String) (b : Json) (rest : List (String × Json)) :
    nodupKeys ((a, b) :: rest) ↔ a ∉ rest.map Prod.fst ∧ nodupKeys rest := by
  simp only [nodupKeys, List.map_cons, List.nodup_cons]

theorem lookupKey_objInsert_self (kvs : List (String × Json)) (k : String) (v : Json) :
    lookupKey (objInsert kvs k v) k = some v := by
  induction kvs with
  | nil => simp [objInsert, lookupKey]
  | cons p rest ih =>
    obtain ⟨k', v'⟩ := p
    cases hkk : k' == k with
    | true => simp [objInsert, hkk, lookupKey]
    | false => simp [objInsert, hkk, lookupKey, ih]

theorem lookupKey_objInsert_ne (kvs : List (String × Json)) (k k' : String) (v : Json)
    (h : k ≠ k') : lookupKey (objInsert kvs k v) k' = lookupKey kvs k' := by
  have hb : (k == k') = false := by simpa using h
  induction kvs with
  | nil => simp [objInsert, lookupKey, hb]
  | cons p rest ih =>
    obtain ⟨a, b⟩ := p
    cases hak : a == k with
    | true =>
      have hae : a = k := by simpa using hak
      subst hae
      simp [objInsert, hak, lookupKey, hb]
    | false => simp [objInsert, hak, lookupKey, ih]

theorem objInsert_lookup_id (kvs : List (String × Json)) (k : String) (v : Json)
    (hnd : nodupKeys kvs) (h : lookupKey kvs k = some v) : objInsert kvs k v = kvs := by
  induction kvs with
  | nil => simp [lookupKey] at h
  | cons p rest ih =>
    obtain ⟨a, b⟩ := p
    have hnd' : nodupKeys rest := ((nodupKeys_cons a b rest).mp hnd).2
    cases hak : a == k with
    | true =>
      have hae : a = k := by simpa using hak
      have hbv : b = v := by
        have := h
        simp [lookupKey, hak] at this
        exact this
      simp [objInsert, hak, hae, hbv]
    | false =>
      have h' : lookupKey rest k = some v := by simpa [lookupKey, hak] using h
      simp [objInsert, hak, ih hnd' h']

theorem lookup_none_not_mem (kvs : List (String × Json)) (k : String)
    (h : lookupKey kvs k = none) : k ∉ kvs.map Prod.fst := by
  induction kvs with
  | nil => simp
  | cons p rest ih =>
    obtain ⟨a, b⟩ := p
    cases hak : a == k with
    | true => simp [lookupKey, hak] at h
    | false =>
      have h' : lookupKey rest k = none := by simpa [lookupKey, hak] using h
      have hne : a ≠ k := by simpa using hak
      simp only [List.map_cons, List.mem_cons]
      rintro (he | hm)
      · exact hne he.symm
      · exact ih h' hm

theorem keys_objInsert_some (kvs : List (String × Json)) (k : String) (v w : Json)
    (h : lookupKey kvs k = some w) :
    (objInsert kvs k v).map Prod.fst = kvs.map Prod.fst := by
  induction kvs with
  | nil => simp [lookupKey] at h
  | cons p rest ih =>
    obtain ⟨a, b⟩ := p
    cases hak : a == k with
    | true =>
      have hae : a = k := by simpa using hak
      subst hae
      simp [objInsert, hak]
    | false =>
      have h' : lookupKey rest k = some w := by simpa [lookupKey, hak] using h
      simp only [objInsert, hak, Bool.false_eq_true, if_false, List.map_cons, ih h']

theorem objInsert_of_lookup_none (kvs : List (String × Json)) (k : String) (v : Json)
    (h : lookupKey kvs k = none) : objInsert kvs k v = kvs ++ [(k, v)] := by
  induction kvs with
  | nil => simp [objInsert]
  | cons p rest ih =>
    obtain ⟨a, b⟩ := p
    cases hak : a == k with
    | true => simp [lookupKey, hak] at h
    | false =>
      have h' : lookupKey rest k = none := by simpa [lookupKey, hak] using h
      simp [objInsert, hak, ih h']

theorem objInsert_nodup (kvs : List (String × Json)) (k : String) (v : Json)
    (h : nodupKeys kvs) : nodupKeys (objInsert kvs k v) := by
  cases hc : lookupKey kvs k with
  | none =>
    rw [objInsert_of_lookup_none kvs k v hc]
    have hk : k ∉ kvs.map Prod.fst := lookup_none_not_mem kvs k hc
    simp only [nodupKeys, List.map_append, List.map_cons, List.map_nil]
    rw [List.nodup_append]
    refine ⟨h, by simp, ?_⟩
    intro a ha
    simp only [List.mem_singleton]
    intro he
    exact hk (he ▸ ha)
  | some w =>
    have := keys_objInsert_some kvs k v w hc
    simpa [nodupKeys, this] using h

theorem foldl_objInsert_nodup (l : List (String × Json)) :
    ∀ acc, nodupKeys acc → nodupKeys (l.foldl (fun acc p => objInsert acc p.1 p.2) acc) := by
  induction l with
  | nil => intro acc h; simpa using h
  | cons p t ih => intro acc h; exact ih _ (objInsert_nodup _ _ _ h)

theorem jsSpreadPairs_nodup (j : Json) : nodupKeys (jsSpreadPairs j) :=
  foldl_objInsert_nodup _ [] (by simp [nodupKeys])

theorem lookupKey_append_none (l1 l2 : List (String × Json)) (k : String)
    (h : lookupKey l1 k = none) : lookupKey (l1 ++ l2) k = lookupKey l2 k := by
  induction l1 with
  | nil => simp
  | cons p rest ih =>
    obtain ⟨a, b⟩ := p
    cases hak : a == k with
    | true => simp [lookupKey, hak] at h
    | false =>
      have h' : lookupKey rest k = none := by simpa [lookupKey, hak] using h
      simpa [lookupKey, hak] using ih h'

theorem foldl_objInsert_append (l : List (String × Json)) :
    ∀ acc, nodupKeys l → (∀ p ∈ l, lookupKey acc p.1 = none) →
    l.foldl (fun acc p => objInsert acc p.1 p.2) acc = acc ++ l := by
  induction l with
  | nil => intro acc _ _; simp
  | cons p t ih =>
    intro acc hnd hl
    obtain ⟨pk, pv⟩ := p
    have h1 : pk ∉ t.map Prod.fst := ((nodupKeys_cons pk pv t).mp hnd).1
    have h2 : nodupKeys t := ((nodupKeys_cons pk pv t).mp hnd).2
    have hacc : objInsert acc pk pv = acc ++ [(pk, pv)] :=
      objInsert_of_lookup_none acc pk pv (hl (pk, pv) (by simp))
    have hl' : ∀ q ∈ t, lookupKey (acc ++ [(pk, pv)]) q.1 = none := by
      intro q hq
      have hmem : q.1 ∈ t.map Prod.fst := List.mem_map.mpr ⟨q, hq, rfl⟩
      have hne : (pk == q.1) = false := by
        have : pk ≠ q.1 := fun he => h1 (he ▸ hmem)
        simpa using this
      rw [lookupKey_append_none acc [(pk, pv)] q.1 (hl q (List.mem_cons_of_mem _ hq))]
      simp [lookupKey, hne]
    calc ((pk, pv) :: t).foldl (fun acc p => objInsert acc p.1 p.2) acc
        = t.foldl (fun acc p => objInsert acc p.1 p.2) (acc ++ [(pk, pv)]) := by
          simp [List.foldl_cons, hacc]
      _ = (acc ++ [(pk, pv)]) ++ t := ih (acc ++ [(pk, pv)]) h2 hl'
      _ = acc ++ (pk, pv) :: t := by simp

theorem jsSpreadPairs_of_nodup (kvs : List (String × Json)) (h : nodupKeys kvs) :
    jsSpreadPairs (Json.obj kvs) = kvs := by
  have := foldl_objInsert_append kvs [] h (by intro p _; simp [lookupKey])
  simpa [jsSpreadPairs, rawPairs] using this

/- ----------------------------------------------------------------- -/
/- Lemmas: the capped progress log.                                   -/
/- ----------------------------------------------------------------- -/

theorem lastN_absorb (k : Nat) (a b : List α) :
    lastN k (lastN k a ++ b) = lastN k (a ++ b) := by
  simp only [lastN]
  rw [List.drop_append_eq_append_drop, List.drop_drop, List.drop_append_eq_append_drop]
  simp only [List.length_append, List.length_drop]
  congr 2 <;> omega

theorem lastN_length_le (k : Nat) (l : List α) : (lastN k l).length ≤ k := by
  simp only [lastN, List.length_drop]
  omega

theorem foldl_lastN_push (es : List ThinkingEntry) :
    ∀ acc : List ThinkingEntry, acc.length ≤ 12 →
    es.foldl (fun l e => lastN 12 (l ++ [e])) acc = lastN 12 (acc ++ es) := by
  induction es with
  | nil =>
    intro acc h
    simp only [List.foldl_nil, List.append_nil, lastN]
    have : acc.length - 12 = 0 := by omega
    simp [this]
  | cons e t ih =>
    intro acc h
    rw [List.foldl_cons, ih (lastN 12 (acc ++ [e])) (lastN_length_le _ _), lastN_absorb]
    simp

theorem thinking_fold (es : List ThinkingEntry) :
    ∀ s : AppState,
    ((es.map (fun e => SSEEvent.thinkingEv e.stage e.message e.status)).foldl applyEvent s).thinking
      = es.foldl (fun l e => lastN 12 (l ++ [e])) s.thinking := by
  induction es with
  | nil => intro s; simp
  | cons e t ih =>
    intro s
    rw [List.map_cons, List.foldl_cons, List.foldl_cons, ih]
    rfl

/-- C3: after any sequence of N progress events applied from the empty log,
the log has length exactly `min N 12` and consists of the most recent
`min N 12` events in arrival order (the suffix of the event list; the
oldest are dropped first on overflow), so its length never exceeds 12. -/
theorem bounded_progress_log (es : List ThinkingEntry) :
    (((es.map (fun e => SSEEvent.thinkingEv e.stage e.message e.status)).foldl
        applyEvent initSession).thinking).length = min es.length 12 ∧
    ((es.map (fun e => SSEEvent.thinkingEv e.stage e.message e.status)).foldl
        applyEvent initSession).thinking = es.drop (es.length - 12) := by
  have h := thinking_fold es initSession
  have h2 := foldl_lastN_push es ([] : List ThinkingEntry) (by simp)
  have hinit : initSession.thinking = ([] : List ThinkingEntry) := rfl
  rw [hinit] at h
  rw [h2] at h
  simp only [List.nil_append] at h
  constructor
  · rw [h]
    simp only [lastN, List.length_drop]
    omega
  · rw [h]
    rfl

/- ----------------------------------------------------------------- -/
/- Claim C9: idempotence of the normalizer.                           -/
/- ----------------------------------------------------------------- -/

/-- C9: normalizing an already-normalized result is the identity: for an
object whose `highlights` and `sources` are arrays and whose `summary` is
present (non-null — `summary` is consumed with nullish coalescing, so
"present" means present and non-null), `normalizeResponse` returns an equal
value. -/
theorem normalize_idempotent (kvs : List (String × Json)) (v : Json) (hl sl : List Json)
    (hnd : nodupKeys kvs)
    (hs : lookupKey kvs "summary" = some v) (hv : v ≠ Json.null)
    (hh : lookupKey kvs "highlights" = some (Json.arr hl))
    (hsrc : lookupKey kvs "sources" = some (Json.arr sl)) :
    normalizeResponse (some (Json.obj kvs)) = Json.obj kvs := by
  have hval : ∀ X : Option Json, (jsCoalesce (some v) X).getD Json.null = v := by
    intro X
    cases v with
    | null => exact absurd rfl hv
    | bool b => rfl
    | num n => rfl
    | str s => rfl
    | arr l => rfl
    | obj o => rfl
  simp only [normalizeResponse, jsGet, Json.getField, hs, hh, hsrc,
    jsSpreadO, jsSpreadPairs_of_nodup kvs hnd]
  rw [hval]
  rw [objInsert_lookup_id kvs "summary" v hnd hs]
  rw [objInsert_lookup_id kvs "highlights" (Json.arr hl) hnd hh]
  rw [objInsert_lookup_id kvs "sources" (Json.arr sl) hnd hsrc]

/-- C9 witness: a concrete already-normalized result is a fixed point. -/
theorem normalize_idempotent_witness :
    normalizeResponse (some (Json.obj [("summary", Json.str "s"), ("highlights", Json.arr []),
      ("sources", Json.arr [Json.str "u"])])) =
    Json.obj [("summary", Json.str "s"), ("highlights", Json.arr []),
      ("sources", Json.arr [Json.str "u"])] :=
  normalize_idempotent _ (Json.str "s") [] [Json.str "u"]
    (by simp [nodupKeys]) rfl (fun h => Json.noConfusion h) rfl rfl

/- ----------------------------------------------------------------- -/
/- Claim C4: field-extraction precedence.                             -/
/- ----------------------------------------------------------------- -/

theorem orDefault_jsOr (a b : Option Json) (d : Json) :
    orDefault (jsOr a b) d = specFieldPrec a b d := by
  cases a with
  | none =>
    cases b with
    | none => rfl
    | some w => rfl
  | some v =>
    cases hv : v.truthy with
    | true => simp [jsOr, orDefault, specFieldPrec, hv]
    | false =>
      cases b with
      | none => simp [jsOr, orDefault, specFieldPrec, hv]
      | some w => simp [jsOr, orDefault, specFieldPrec, hv]

/-- C4 counterexample: in the record `c4Rec` the top-level `stage` field is
present (the empty string) and differs from the nested one, yet the
classified progress event carries the nested value — a present top-level
field does not always win, refuting the claim as stated. -/
theorem field_extraction_top_level_ce :
    c4Rec.getField "stage" = some (Json.str "") ∧
    classifyJson c4Rec =
      some (SSEEvent.thinkingEv (Json.str "fetch") (Json.str "") (Json.str "info")) ∧
    (Json.str "fetch" : Json) ≠ Json.str "" := by
  refine ⟨rfl, rfl, ?_⟩
  intro h
  injection h with h'
  exact absurd h' (by decide)

/-- C4 amended: for every successfully parsed record classified as a
progress event, each of `stage`, `message`, `status` is extracted by JS
truthiness precedence: the top-level field is used whenever it is truthy;
if it is absent or falsy, the nested `data` field is used when truthy; and
otherwise the default applies (`"thinking"`, `""`, `"info"`).  In
particular a truthy top-level field always wins over a nested one. -/
theorem field_extraction_truthiness (j : Json) (st ms stt : Json)
    (h : classifyJson j = some (SSEEvent.thinkingEv st ms stt)) :
    st = specFieldPrec (j.getField "stage")
      ((j.getField "data").bind (fun d => d.getField "stage")) (Json.str "thinking") ∧
    ms = specFieldPrec (j.getField "message")
      ((j.getField "data").bind (fun d => d.getField "message")) (Json.str "") ∧
    stt = specFieldPrec (j.getField "status")
      ((j.getField "data").bind (fun d => d.getField "status")) (Json.str "info") := by
  simp only [classifyJson] at h
  split at h
  · exact absurd h (by simp)
  · split at h
    · rw [Option.some.injEq] at h
      injection h with h1 h2 h3
      exact ⟨h1.symm.trans (orDefault_jsOr _ _ _), h2.symm.trans (orDefault_jsOr _ _ _),
        h3.symm.trans (orDefault_jsOr _ _ _)⟩
    · exact absurd h (by simp)

/-- C4 witness: the amended precedence evaluated on a concrete record with
one truthy top-level field. -/
theorem field_extraction_truthiness_witness :
    Json.str "x" = specFieldPrec (some (Json.str "x")) none (Json.str "thinking") ∧
    Json.str "" = specFieldPrec none none (Json.str "") ∧
    Json.str "info" = specFieldPrec none none (Json.str "info") :=
  field_extraction_truthiness (Json.obj [("stage", Json.str "x")]) (Json.str "x")
    (Json.str "") (Json.str "info") rfl

/- ----------------------------------------------------------------- -/
/- Claim C5: highlights normalization.                                -/
/- ----------------------------------------------------------------- -/

/-- C5 counterexample: the normalizer itself does not coerce string
highlight elements — it passes an array through unchanged, so its output
still holds the bare string, not `{title: thatString}`. -/
theorem normalizer_maps_strings_ce :
    (normalizeResponse (some (Json.obj [("highlights", Json.arr [Json.str "a"])]))).getField
      "highlights" = some (Json.arr [Json.str "a"]) ∧
    (Json.arr [Json.str "a"] : Json) ≠ Json.arr [Json.obj [("title", Json.str "a")]] := by
  refine ⟨rfl, ?_⟩
  intro h
  injection h with h1
  injection h1 with h2 _
  exact Json.noConfusion h2

/-- C5 amended: the normalizer passes an array `highlights` through
unchanged and turns anything else into the empty array; the string-element
coercion to `{title: thatString}` (objects passing through unchanged) is
performed downstream by the `highlightCards` view, so the composition of
the two realizes the claimed mapping. -/
theorem highlights_normalization (d : Option Json) :
    (∀ l, jsGet d "highlights" = some (Json.arr l) →
      (normalizeResponse d).getField "highlights" = some (Json.arr l) ∧
      highlightCards (some (normalizeResponse d)) = l.map coerceHighlight) ∧
    (isArrO (jsGet d "highlights") = false →
      (normalizeResponse d).getField "highlights" = some (Json.arr []) ∧
      highlightCards (some (normalizeResponse d)) = []) := by
  have hget : ∀ hv : Json,
      (Json.obj (objInsert (objInsert (objInsert (jsSpreadO d) "summary"
        ((jsCoalesce (jsGet d "summary") (jsCoalesce (jsGet d "answer")
          (some Json.null))).getD Json.null)) "highlights" hv) "sources"
        (match jsGet d "sources" with
          | some (Json.arr l) => Json.arr l
          | _ => Json.arr []))).getField "highlights" = some hv := by
    intro hv
    show lookupKey _ "highlights" = some hv
    rw [lookupKey_objInsert_ne _ "sources" "highlights" _ (by decide)]
    exact lookupKey_objInsert_self _ _ _
  constructor
  · intro l hl
    have h1 : (normalizeResponse d).getField "highlights" = some (Json.arr l) := by
      simp only [normalizeResponse, hl]
      exact hget (Json.arr l)
    refine ⟨h1, ?_⟩
    simp [highlightCards, jsGet, h1, truthyO, Json.truthy]
  · intro hna
    have hl : (match jsGet d "highlights" with
        | some (Json.arr l) => Json.arr l
        | _ => Json.arr []) = Json.arr [] := by
      cases hg : jsGet d "highlights" with
      | none => rfl
      | some w =>
        cases w with
        | arr l => rw [hg] at hna; simp [isArrO] at hna
        | null => rfl
        | bool b => rfl
        | num n => rfl
        | str s => rfl
        | obj o => rfl
    have h1 : (normalizeResponse d).getField "highlights" = some (Json.arr []) := by
      simp only [normalizeResponse, hl]
      exact hget (Json.arr [])
    refine ⟨h1, ?_⟩
    simp [highlightCards, jsGet, h1, truthyO, Json.truthy]

/-- C5 witness: a concrete mixed array passes through the normalizer
unchanged and is coerced by `highlightCards`. -/
theorem highlights_normalization_witness :
    (normalizeResponse (some (Json.obj [("highlights",
      Json.arr [Json.str "g", Json.obj [("url", Json.str "u")]])]))).getField "highlights"
      = some (Json.arr [Json.str "g", Json.obj [("url", Json.str "u")]]) ∧
    highlightCards (some (normalizeResponse (some (Json.obj [("highlights",
      Json.arr [Json.str "g", Json.obj [("url", Json.str "u")]])])))) =
      [Json.str "g", Json.obj [("url", Json.str "u")]].map coerceHighlight :=
  (highlights_normalization _).1 _ rfl

/- ----------------------------------------------------------------- -/
/- Claim C7: resilience to malformed records.                         -/
/- ----------------------------------------------------------------- -/

theorem dropWhile_all_nil (p : Char → Bool) (l : List Char)
    (h : ∀ c ∈ l.dropWhile p, p c = true) : l.dropWhile p = [] := by
  induction l with
  | nil => rfl
  | cons c t ih =>
    cases hc : p c with
    | true => rw [List.dropWhile_cons_of_pos hc] at h ⊢; exact ih h
    | false =>
      rw [List.dropWhile_cons_of_neg (by simp [hc])] at h
      have := h c (by simp)
      rw [this] at hc
      cases hc

theorem trimC_nil_skipWsC (data : List Char) (h : trimC data = []) : skipWsC data = [] := by
  unfold trimC at h
  rw [List.reverse_eq_nil_iff] at h
  have hall : ∀ c ∈ (data.dropWhile isWsC).reverse, isWsC c = true :=
    List.dropWhile_eq_nil_iff.mp h
  have hall2 : ∀ c ∈ data.dropWhile isWsC, isWsC c = true := by
    intro c hc
    exact hall c (List.mem_reverse.mpr hc)
  exact dropWhile_all_nil isWsC data hall2

theorem parseC_guard (data : List Char) (j : Json) (h : parseC data = some j) :
    (data == doneMarker || trimC data == []) = false := by
  rw [Bool.or_eq_false_iff]
  constructor
  · cases hd : data == doneMarker with
    | false => rfl
    | true =>
      have hde : data = doneMarker := by simpa using hd
      subst hde
      have : parseC doneMarker = none := rfl
      rw [this] at h
      exact Option.noConfusion h
  · cases ht : trimC data == [] with
    | false => rfl
    | true =>
      have hte : trimC data = [] := by simpa using ht
      have hskip : skipWsC data = [] := trimC_nil_skipWsC data hte
      have hsucc : 2 * data.length + 2 = (2 * data.length + 1) + 1 := rfl
      unfold parseC at h
      rw [hsucc] at h
      unfold parseValue at h
      rw [hskip] at h
      exact Option.noConfusion h

theorem classifyRecord_parse_none (data : List Char) (h : parseC data = none) :
    classifyRecord data = none := by
  unfold classifyRecord
  split
  · rfl
  · simp [h]

theorem processSSELine_parse_none (data : List Char) (s : AppState)
    (h : parseC data = none) : processSSELine s data = s := by
  unfold processSSELine
  split
  · rfl
  · simp [h]

theorem lineEvent_marker (p : List Char) : lineEvent (dataMarker ++ p) = classifyRecord p := by
  unfold lineEvent
  have h6 : (dataMarker ++ p).take 6 = dataMarker := by
    rw [List.take_append_of_le_length (by simp [dataMarker])]
    rfl
  have hd : (dataMarker ++ p).drop 6 = p := by
    rw [List.drop_append_of_le_length (by simp [dataMarker])]
    simp [dataMarker]
  rw [h6, hd]
  simp

/-- C7: a stream of one record that fails structural parsing placed between
two valid records yields exactly the two valid classified events in order;
the malformed record is classified as ignorable and its processing leaves
the state unchanged (no error is raised — the model is total). -/
theorem malformed_record_skipped (p1 pbad p2 : List Char) (e1 e2 : SSEEvent)
    (h1 : classifyRecord p1 = some e1) (hb : parseC pbad = none)
    (h2 : classifyRecord p2 = some e2) :
    [dataMarker ++ p1, dataMarker ++ pbad, dataMarker ++ p2].filterMap lineEvent = [e1, e2] ∧
    (∀ s : AppState, processSSELine s pbad = s) := by
  constructor
  · simp only [List.filterMap_cons, List.filterMap_nil, lineEvent_marker, h1, h2,
      classifyRecord_parse_none pbad hb]
  · intro s
    exact processSSELine_parse_none pbad s hb

/-- C7 witness: a concrete malformed record between two progress records. -/
theorem malformed_record_skipped_witness :
    [dataMarker ++ "\x7b\"type\":\"thinking\",\"stage\":\"a\"\x7d".data,
     dataMarker ++ "\x7boops".data,
     dataMarker ++ "\x7b\"type\":\"thinking\",\"stage\":\"b\"\x7d".data].filterMap lineEvent
      = [SSEEvent.thinkingEv (Json.str "a") (Json.str "") (Json.str "info"),
         SSEEvent.thinkingEv (Json.str "b") (Json.str "") (Json.str "info")] ∧
    (∀ s : AppState, processSSELine s "\x7boops".data = s) :=
  malformed_record_skipped _ _ _ _ _ rfl rfl rfl

/- ----------------------------------------------------------------- -/
/- Claim C10: the result value comes from the data field alone.       -/
/- ----------------------------------------------------------------- -/

theorem normalize_obj_pairs (o : Option Json) :
    ∃ NP, normalizeResponse o = Json.obj NP ∧ nodupKeys NP := by
  refine ⟨_, rfl, ?_⟩
  refine objInsert_nodup _ _ _ (objInsert_nodup _ _ _ (objInsert_nodup _ _ _ ?_))
  cases o with
  | none => simp [jsSpreadO, nodupKeys]
  | some j => exact jsSpreadPairs_nodup j

theorem resultValue_getField_ne_error (o : Option Json) (k : String) (hk : "error" ≠ k) :
    (resultValue o).getField k = (normalizeResponse o).getField k := by
  obtain ⟨NP, hNPeq, hNPnd⟩ := normalize_obj_pairs o
  simp only [resultValue]
  split
  · rw [hNPeq]
    show lookupKey (objInsert (jsSpreadPairs (Json.obj NP)) "error" _) k = _
    rw [jsSpreadPairs_of_nodup NP hNPnd, lookupKey_objInsert_ne _ "error" k _ hk]
    rfl
  · rfl

theorem normalize_getField_nonobj (o : Option Json) (ho : isObjO o = false) :
    (normalizeResponse o).getField "summary" = some Json.null ∧
    (normalizeResponse o).getField "highlights" = some (Json.arr []) ∧
    (normalizeResponse o).getField "sources" = some (Json.arr []) := by
  have hget : ∀ k, jsGet o k = none := by
    intro k
    cases o with
    | none => rfl
    | some j =>
      cases j with
      | obj kvs => simp [isObjO] at ho
      | null => rfl
      | bool b => rfl
      | num n => rfl
      | str s => rfl
      | arr l => rfl
  refine ⟨?_, ?_, ?_⟩
  · simp only [normalizeResponse, hget]
    show lookupKey _ "summary" = _
    rw [lookupKey_objInsert_ne _ "sources" "summary" _ (by decide),
        lookupKey_objInsert_ne _ "highlights" "summary" _ (by decide),
        lookupKey_objInsert_self]
    rfl
  · simp only [normalizeResponse, hget]
    show lookupKey _ "highlights" = _
    rw [lookupKey_objInsert_ne _ "sources" "highlights" _ (by decide),
        lookupKey_objInsert_self]
  · simp only [normalizeResponse, hget]
    show lookupKey _ "sources" = _
    rw [lookupKey_objInsert_self]

/-- C10: the state update for a record whose `type` is `"result"` is
computed exclusively from the record's `data` field: `apiData` is replaced
wholesale (for any prior state) by `resultValue` of that field, the log and
error are untouched, and two result records agreeing on `data` produce the
same result in any states.  When `data` is absent or not an object, the
stored normalized value still has a null `summary` and empty `highlights`
and `sources` arrays. -/
theorem result_from_data_only (data : List Char) (j : Json) (s s' : AppState)
    (hp : parseC data = some j)
    (hty : isStrO (j.getField "type") "result" = true) :
    (processSSELine s data).apiData = some (resultValue (j.getField "data")) ∧
    (processSSELine s data).thinking = s.thinking ∧
    (processSSELine s data).error = s.error ∧
    (∀ data2 j2, parseC data2 = some j2 → isStrO (j2.getField "type") "result" = true →
      j2.getField "data" = j.getField "data" →
      (processSSELine s' data2).apiData = (processSSELine s data).apiData) ∧
    (∀ o : Option Json, isObjO o = false →
      (resultValue o).getField "summary" = some Json.null ∧
      (resultValue o).getField "highlights" = some (Json.arr []) ∧
      (resultValue o).getField "sources" = some (Json.arr [])) := by
  have hcore : ∀ (t : AppState) (d : List Char) (jj : Json), parseC d = some jj →
      isStrO (jj.getField "type") "result" = true →
      processSSELine t d = { t with apiData := some (resultValue (jj.getField "data")) } := by
    intro t d jj hpd htyj
    have hguard := parseC_guard d jj hpd
    cases jj with
    | obj kvs =>
      unfold processSSELine
      rw [hguard, hpd]
      simp [htyj]
    | null => simp [Json.getField, isStrO] at htyj
    | bool b => simp [Json.getField, isStrO] at htyj
    | num n => simp [Json.getField, isStrO] at htyj
    | str t2 => simp [Json.getField, isStrO] at htyj
    | arr l => simp [Json.getField, isStrO] at htyj
  refine ⟨?_, ?_, ?_, ?_, ?_⟩
  · rw [hcore s data j hp hty]
  · rw [hcore s data j hp hty]
  · rw [hcore s data j hp hty]
  · intro d2 j2 hp2 hty2 hde
    rw [hcore s' d2 j2 hp2 hty2, hcore s data j hp hty]
    simp [hde]
  · intro o ho
    refine ⟨?_, ?_, ?_⟩
    · rw [resultValue_getField_ne_error o "summary" (by decide)]
      exact (normalize_getField_nonobj o ho).1
    · rw [resultValue_getField_ne_error o "highlights" (by decide)]
      exact (normalize_getField_nonobj o ho).2.1
    · rw [resultValue_getField_ne_error o "sources" (by decide)]
      exact (normalize_getField_nonobj o ho).2.2

/-- C10 witness: a concrete result record applied to the initial state. -/
theorem result_from_data_only_witness :
    (processSSELine initSession
      "\x7b\"type\":\"result\",\"data\":\x7b\"summary\":\"ok\"\x7d\x7d".data).apiData =
    some (resultValue ((Json.obj [("type", Json.str "result"),
      ("data", Json.obj [("summary", Json.str "ok")])]).getField "data")) :=
  (result_from_data_only "\x7b\"type\":\"result\",\"data\":\x7b\"summary\":\"ok\"\x7d\x7d".data
    (Json.obj [("type", Json.str "result"), ("data", Json.obj [("summary", Json.str "ok")])])
    initSession initSession rfl rfl).1

/- ----------------------------------------------------------------- -/
/- Decomposition: processSSELine = classifier + reducer.              -/
/- ----------------------------------------------------------------- -/

theorem branch_decomp (s : AppState) (dF stL msL sttL : Option Json) (c1 c2 : Bool) :
    (if c1 then { s with apiData := some (resultValue dF) }
     else if c2 then { s with thinking := lastN 12 (s.thinking ++
       [⟨orDefault stL (Json.str "thinking"), orDefault msL (Json.str ""),
         orDefault sttL (Json.str "info")⟩]) }
     else s)
    = (match (if c1 then some (SSEEvent.resultEv dF)
        else if c2 then some (SSEEvent.thinkingEv (orDefault stL (Json.str "thinking"))
          (orDefault msL (Json.str "")) (orDefault sttL (Json.str "info")))
        else none) with
       | none => s
       | some e => applyEvent s e) := by
  cases c1 <;> cases c2 <;> rfl

theorem processSSELine_classify (s : AppState) (d : List Char) :
    processSSELine s d =
      (match classifyRecord d with
       | none => s
       | some e => applyEvent s e) := by
  unfold processSSELine classifyRecord
  split
  · rfl
  · cases hp : parseC d with
    | none => simp only [hp]
    | some pj =>
      simp only [hp]
      cases pj with
      | null => rfl
      | bool b => exact branch_decomp s _ _ _ _ _ _
      | num n => exact branch_decomp s _ _ _ _ _ _
      | str t => exact branch_decomp s _ _ _ _ _ _
      | arr l => exact branch_decomp s _ _ _ _ _ _
      | obj kvs => exact branch_decomp s _ _ _ _ _ _

theorem lineStep_event (s : AppState) (l : List Char) :
    lineStep s l =
      (match lineEvent l with
       | none => s
       | some e => applyEvent s e) := by
  unfold lineStep lineEvent
  split
  · exact processSSELine_classify s _
  · rfl

theorem feedState_events : ∀ (lines : List (List Char)) (s : AppState),
    feedState s lines = (lines.filterMap lineEvent).foldl applyEvent s := by
  intro lines
  induction lines with
  | nil => intro s; rfl
  | cons l t ih =>
    intro s
    have h1 : feedState s (l :: t) = feedState (lineStep s l) t := rfl
    rw [h1, ih, lineStep_event]
    cases he : lineEvent l with
    | none => simp [he]
    | some e => simp [he]

theorem runLoop_events : ∀ (cs : List (List Nat)) (st : DecodeState) (s : AppState),
    (runLoop st s cs).2 = ((runFrom st cs).1).foldl applyEvent s ∧
    (runLoop st s cs).1 = (runFrom st cs).2 := by
  intro cs
  induction cs with
  | nil => intro st s; exact ⟨rfl, rfl⟩
  | cons c t ih =>
    intro st s
    have h1 : runLoop st s (c :: t) =
        runLoop (feedChunk st c).2 (feedState s (feedChunk st c).1) t := rfl
    have h2 : runFrom st (c :: t) =
        ((feedChunk st c).1.filterMap lineEvent ++ (runFrom (feedChunk st c).2 t).1,
          (runFrom (feedChunk st c).2 t).2) := rfl
    rw [h1, h2]
    constructor
    · rw [(ih (feedChunk st c).2 (feedState s (feedChunk st c).1)).1, feedState_events]
      simp [List.foldl_append]
    · exact (ih _ _).2

theorem applyEvent_error (s : AppState) (e : SSEEvent) : (applyEvent s e).error = s.error := by
  cases e <;> rfl

theorem fold_error (evs : List SSEEvent) : ∀ s : AppState,
    (evs.foldl applyEvent s).error = s.error := by
  induction evs with
  | nil => intro s; rfl
  | cons e t ih => intro s; rw [List.foldl_cons, ih, applyEvent_error]

theorem fold_apiData_resultFree (evs : List SSEEvent) (h : resultFree evs = true) :
    ∀ s : AppState, (evs.foldl applyEvent s).apiData = s.apiData := by
  induction evs with
  | nil => intro s; rfl
  | cons e t ih =>
    intro s
    rw [List.foldl_cons]
    cases e with
    | resultEv d => simp [resultFree] at h
    | thinkingEv a b c =>
      have ht : resultFree t = true := by simpa [resultFree] using h
      rw [ih ht]
      rfl

/- ----------------------------------------------------------------- -/
/- Claim C6: stream end without a result.                             -/
/- ----------------------------------------------------------------- -/

/-- C6 counterexample: a session whose stream delivers only the sentinel
and then closes gracefully — no result was received and the caller did not
cancel — terminates with `error = none`: the code never produces the
generic no-live-updates message on a graceful end, contradicting the
claimed `Errored` outcome. -/
theorem stream_end_errored_ce :
    (sessionClosed c6Chunks).apiData = none ∧ (sessionClosed c6Chunks).error = none ∧
    (none : Option String) ≠ some genericMsg := by
  refine ⟨rfl, rfl, ?_⟩
  exact fun h => Option.noConfusion h

/-- C6 amended: a session whose stream ends gracefully (sentinel or
physical close) with no result record and no cancellation finishes with no
result and, contrary to the original claim, with no error message; the
generic no-live-updates message is produced exactly when the read loop is
terminated by a non-abort exception (transport failure). -/
theorem stream_end_without_result (chunks chunks2 : List (List Nat))
    (h : resultFree (runStream chunks) = true) :
    (sessionClosed chunks).error = none ∧ (sessionClosed chunks).apiData = none ∧
    (sessionErrored chunks2).error = some genericMsg := by
  have hr := runLoop_events chunks initDecode initSession
  have hsplit : resultFree ((runFrom initDecode chunks).1) = true ∧
      resultFree (flushEvents (runFrom initDecode chunks).2) = true := by
    have hrs : runStream chunks = (runFrom initDecode chunks).1 ++
        flushEvents (runFrom initDecode chunks).2 := rfl
    rw [hrs] at h
    simpa [resultFree, List.all_append] using h
  have hmain : (runLoop initDecode initSession chunks).2.error = none ∧
      (runLoop initDecode initSession chunks).2.apiData = none := by
    rw [hr.1]
    refine ⟨?_, ?_⟩
    · rw [fold_error]
      rfl
    · rw [fold_apiData_resultFree _ hsplit.1]
      rfl
  refine ⟨?_, ?_, rfl⟩
  · show (endSession (if (trimC (runLoop initDecode initSession chunks).1.lineBuf == []) = true
        then (runLoop initDecode initSession chunks).2
        else feedState (runLoop initDecode initSession chunks).2
          (splitNl (runLoop initDecode initSession chunks).1.lineBuf)) EndKind.closed).error = none
    split
    · exact hmain.1
    · show (feedState _ _).error = none
      rw [feedState_events, fold_error]
      exact hmain.1
  · show (endSession (if (trimC (runLoop initDecode initSession chunks).1.lineBuf == []) = true
        then (runLoop initDecode initSession chunks).2
        else feedState (runLoop initDecode initSession chunks).2
          (splitNl (runLoop initDecode initSession chunks).1.lineBuf)) EndKind.closed).apiData = none
    split
    · exact hmain.2
    · rename_i hcond
      have hcf : (trimC ((runFrom initDecode chunks).2).lineBuf == []) = false := by
        rw [← hr.2]
        simpa using hcond
      have hflush : (splitNl (runLoop initDecode initSession chunks).1.lineBuf).filterMap
          lineEvent = flushEvents (runFrom initDecode chunks).2 := by
        rw [hr.2]
        unfold flushEvents
        simp [hcf]
      show (feedState _ _).apiData = none
      rw [feedState_events, hflush, fold_apiData_resultFree _ hsplit.2]
      exact hmain.2

/-- C6 witness for the amended claim: the sentinel-only stream, plus an
errored transport. -/
theorem stream_end_without_result_witness :
    (sessionClosed c6Chunks).error = none ∧ (sessionClosed c6Chunks).apiData = none ∧
    (sessionErrored []).error = some genericMsg :=
  stream_end_without_result c6Chunks [] rfl

/- ----------------------------------------------------------------- -/
/- Claim C8: cancellation is silent.                                  -/
/- ----------------------------------------------------------------- -/

/-- C8: a session cancelled by the caller mid-stream before any result
record arrived finishes with no result and no error message: the awaited
read rejects with `AbortError`, and the catch's name guard deliberately
skips `setError`, so cancellation is never surfaced as a transport error. -/
theorem cancellation_silent (chunks : List (List Nat))
    (h : resultFree (runFrom initDecode chunks).1 = true) :
    (sessionAborted chunks).error = none ∧ (sessionAborted chunks).apiData = none := by
  have hr := runLoop_events chunks initDecode initSession
  constructor
  · show (endSession (runLoop initDecode initSession chunks).2 EndKind.abortErr).error = none
    show (runLoop initDecode initSession chunks).2.error = none
    rw [hr.1, fold_error]
    rfl
  · show (runLoop initDecode initSession chunks).2.apiData = none
    rw [hr.1, fold_apiData_resultFree _ h]
    rfl

/-- C8 witness: a concrete progress-only stream cancelled mid-flight. -/
theorem cancellation_silent_witness :
    (sessionAborted c8Chunks).error = none ∧ (sessionAborted c8Chunks).apiData = none :=
  cancellation_silent c8Chunks rfl

/- ----------------------------------------------------------------- -/
/- Claim C1: chunk invariance of the frame decoder.                   -/
/- ----------------------------------------------------------------- -/

theorem utf8Len_pos (b : Nat) : 1 ≤ utf8Len b := by
  unfold utf8Len
  split_ifs <;> omega

theorem utf8DecodeAux_fuel : ∀ (f1 f2 : Nat) (bs : List Nat), bs.length ≤ f1 →
    bs.length ≤ f2 → utf8DecodeAux f1 bs = utf8DecodeAux f2 bs := by
  intro f1
  induction f1 with
  | zero =>
    intro f2 bs h1 _
    have hb : bs = [] := List.length_eq_zero.mp (Nat.le_zero.mp h1)
    subst hb
    cases f2 with
    | zero => rfl
    | succ f => rfl
  | succ f1 ih =>
    intro f2 bs h1 h2
    cases bs with
    | nil =>
      cases f2 with
      | zero => rfl
      | succ f => rfl
    | cons b rest =>
      cases f2 with
      | zero => simp at h2
      | succ f2' =>
        show utf8DecodeAux (f1 + 1) (b :: rest) = utf8DecodeAux (f2' + 1) (b :: rest)
        unfold utf8DecodeAux
        by_cases hc : rest.length + 1 < utf8Len b
        · rw [if_pos hc, if_pos hc]
        · rw [if_neg hc, if_neg hc]
          have hp := utf8Len_pos b
          simp only [List.length_cons] at h1 h2
          have hl1 : ((b :: rest).drop (utf8Len b)).length ≤ f1 := by
            simp only [List.length_drop, List.length_cons]
            omega
          have hl2 : ((b :: rest).drop (utf8Len b)).length ≤ f2' := by
            simp only [List.length_drop, List.length_cons]
            omega
          rw [ih f2' _ hl1 hl2]

theorem utf8Decode_short (b : Nat) (rest : List Nat) (h : rest.length + 1 < utf8Len b) :
    utf8Decode (b :: rest) = ([], b :: rest) := by
  show utf8DecodeAux (b :: rest).length (b :: rest) = ([], b :: rest)
  rw [show (b :: rest).length = rest.length + 1 from rfl]
  unfold utf8DecodeAux
  rw [if_pos h]

theorem utf8Decode_step (b : Nat) (rest : List Nat) (h : ¬ (rest.length + 1 < utf8Len b)) :
    utf8Decode (b :: rest) =
      (decodePoint ((b :: rest).take (utf8Len b)) ::
         (utf8Decode ((b :: rest).drop (utf8Len b))).1,
       (utf8Decode ((b :: rest).drop (utf8Len b))).2) := by
  show utf8DecodeAux (b :: rest).length (b :: rest) = _
  rw [show (b :: rest).length = rest.length + 1 from rfl]
  unfold utf8DecodeAux
  rw [if_neg h]
  have hf : utf8DecodeAux rest.length ((b :: rest).drop (utf8Len b)) =
      utf8Decode ((b :: rest).drop (utf8Len b)) := by
    unfold utf8Decode
    apply utf8DecodeAux_fuel
    · simp only [List.length_drop, List.length_cons]
      have := utf8Len_pos b
      omega
    · exact le_refl _
  rw [hf]

theorem utf8Decode_append_aux : ∀ (n : Nat) (a b : List Nat), a.length ≤ n →
    utf8Decode (a ++ b) =
      ((utf8Decode a).1 ++ (utf8Decode ((utf8Decode a).2 ++ b)).1,
       (utf8Decode ((utf8Decode a).2 ++ b)).2) := by
  intro n
  induction n with
  | zero =>
    intro a b h
    have hb : a = [] := List.length_eq_zero.mp (Nat.le_zero.mp h)
    subst hb
    simp only [List.nil_append]
    rfl
  | succ n ih =>
    intro a b h
    cases a with
    | nil =>
      simp only [List.nil_append]
      rfl
    | cons x a' =>
      by_cases hc : a'.length + 1 < utf8Len x
      · rw [utf8Decode_short x a' hc]
        simp
      · have hle : utf8Len x ≤ a'.length + 1 := Nat.le_of_not_lt hc
        have hc2 : ¬ ((a' ++ b).length + 1 < utf8Len x) := by
          simp only [List.length_append]
          omega
        rw [utf8Decode_step x a' hc]
        rw [show (x :: a') ++ b = x :: (a' ++ b) from rfl, utf8Decode_step x (a' ++ b) hc2]
        have htake : (x :: (a' ++ b)).take (utf8Len x) = (x :: a').take (utf8Len x) := by
          rw [show x :: (a' ++ b) = (x :: a') ++ b from rfl]
          exact List.take_append_of_le_length (by simpa using hle)
        have hdrop : (x :: (a' ++ b)).drop (utf8Len x) = (x :: a').drop (utf8Len x) ++ b := by
          rw [show x :: (a' ++ b) = (x :: a') ++ b from rfl]
          exact List.drop_append_of_le_length (by simpa using hle)
        rw [htake, hdrop]
        have hlen : ((x :: a').drop (utf8Len x)).length ≤ n := by
          simp only [List.length_drop, List.length_cons]
          have := utf8Len_pos x
          simp only [List.length_cons] at h
          omega
        rw [ih _ b hlen]
        simp

theorem utf8Decode_append (a b : List Nat) :
    utf8Decode (a ++ b) =
      ((utf8Decode a).1 ++ (utf8Decode ((utf8Decode a).2 ++ b)).1,
       (utf8Decode ((utf8Decode a).2 ++ b)).2) :=
  utf8Decode_append_aux a.length a b (le_refl _)

theorem utf8Decode_leftover_aux : ∀ (n : Nat) (a : List Nat), a.length ≤ n →
    utf8Decode ((utf8Decode a).2) = ([], (utf8Decode a).2) := by
  intro n
  induction n with
  | zero =>
    intro a h
    have hb : a = [] := List.length_eq_zero.mp (Nat.le_zero.mp h)
    subst hb
    rfl
  | succ n ih =>
    intro a h
    cases a with
    | nil => rfl
    | cons x a' =>
      by_cases hc : a'.length + 1 < utf8Len x
      · rw [utf8Decode_short x a' hc]
        exact utf8Decode_short x a' hc
      · rw [utf8Decode_step x a' hc]
        have hlen : ((x :: a').drop (utf8Len x)).length ≤ n := by
          simp only [List.length_drop, List.length_cons]
          have := utf8Len_pos x
          simp only [List.length_cons] at h
          omega
        exact ih _ hlen

theorem utf8Decode_leftover (a : List Nat) :
    utf8Decode ((utf8Decode a).2) = ([], (utf8Decode a).2) :=
  utf8Decode_leftover_aux a.length a (le_refl _)

theorem splitNl_ne_nil (l : List Char) : splitNl l ≠ [] := by
  induction l with
  | nil => simp [splitNl]
  | cons c t ih =>
    unfold splitNl
    split
    · simp
    · simp

theorem getLastD_cons_ne_nil (x : List Char) (l : List (List Char)) (d : List Char)
    (h : l ≠ []) : (x :: l).getLastD d = l.getLastD d := by
  cases l with
  | nil => exact absurd rfl h
  | cons y ys => simp [List.getLastD_cons]

theorem getLastD_append_ne_nil (l1 l2 : List (List Char)) (d : List Char) (h : l2 ≠ []) :
    (l1 ++ l2).getLastD d = l2.getLastD d := by
  cases l2 with
  | nil => exact absurd rfl h
  | cons x xs =>
    simp [List.getLastD_eq_getLast?, List.getLast?_append_of_ne_nil _ h]

theorem mergeH_ne_nil (x : List Char) (l : List (List Char)) : mergeH x l ≠ [] := by
  cases l <;> simp [mergeH]

theorem splitNl_cons (c : Char) (t : List Char) :
    splitNl (c :: t) =
      if c == '\n' then [] :: splitNl t
      else (c :: (splitNl t).headD []) :: (splitNl t).tail := rfl

theorem nlFree_getLastD_splitNl (l : List Char) :
    nlFree ((splitNl l).getLastD []) = true := by
  induction l with
  | nil => rfl
  | cons c t ih =>
    rw [splitNl_cons c t]
    by_cases hc : (c == '\n') = true
    · rw [if_pos hc, getLastD_cons_ne_nil _ _ _ (splitNl_ne_nil t)]
      exact ih
    · rw [if_neg hc]
      cases hq : splitNl t with
      | nil => exact absurd hq (splitNl_ne_nil t)
      | cons q qs =>
        cases qs with
        | nil =>
          rw [hq] at ih
          simp only [List.headD_cons, List.tail_cons]
          show nlFree (c :: q) = true
          have ihq : nlFree q = true := ih
          simp only [nlFree, List.all_cons, Bool.and_eq_true]
          constructor
          · simpa using hc
          · simpa [nlFree] using ihq
        | cons q2 qs2 =>
          simp only [List.headD_cons, List.tail_cons]
          rw [hq] at ih
          show nlFree (((c :: q) :: q2 :: qs2).getLastD []) = true
          rw [getLastD_cons_ne_nil _ _ _ (by simp)]
          rw [getLastD_cons_ne_nil _ _ _ (by simp)] at ih
          exact ih

theorem splitNl_of_nlFree (l : List Char) (h : nlFree l = true) : splitNl l = [l] := by
  induction l with
  | nil => rfl
  | cons c t ih =>
    simp only [nlFree, List.all_cons, Bool.and_eq_true] at h
    have hc : (c == '\n') = false := by
      cases hcc : c == '\n' with
      | false => rfl
      | true => rw [hcc] at h; simp at h
    have ht : splitNl t = [t] := ih h.2
    rw [splitNl_cons c t, if_neg (by simp [hc]), ht]
    rfl

theorem splitNl_append : ∀ (a b : List Char),
    splitNl (a ++ b) =
      (splitNl a).dropLast ++ mergeH ((splitNl a).getLastD []) (splitNl b) := by
  intro a
  induction a with
  | nil =>
    intro b
    cases h : splitNl b with
    | nil => exact absurd h (splitNl_ne_nil b)
    | cons p ps => simp [splitNl, mergeH, h]
  | cons c t ih =>
    intro b
    rw [show (c :: t) ++ b = c :: (t ++ b) from rfl]
    rw [splitNl_cons c (t ++ b), splitNl_cons c t, ih]
    by_cases hc : (c == '\n') = true
    · rw [if_pos hc, if_pos hc]
      cases hq : splitNl t with
      | nil => exact absurd hq (splitNl_ne_nil t)
      | cons q qs =>
        rw [getLastD_cons_ne_nil _ _ _ (by simp : (q :: qs) ≠ [])]
        simp [List.dropLast_cons₂]
    · rw [if_neg hc, if_neg hc]
      cases hq : splitNl t with
      | nil => exact absurd hq (splitNl_ne_nil t)
      | cons q qs =>
        cases qs with
        | nil =>
          cases hsb : splitNl b with
          | nil => exact absurd hsb (splitNl_ne_nil b)
          | cons r rs => simp [mergeH]
        | cons q2 qs2 =>
          simp only [List.headD_cons, List.tail_cons, List.dropLast_cons₂, List.cons_append]
          rw [getLastD_cons_ne_nil q (q2 :: qs2) [] (by simp),
              getLastD_cons_ne_nil (c :: q) (q2 :: qs2) [] (by simp)]

theorem DecodeState.ext (s1 s2 : DecodeState) (h1 : s1.pending = s2.pending)
    (h2 : s1.lineBuf = s2.lineBuf) : s1 = s2 := by
  cases s1
  cases s2
  simp_all

theorem feedChunk_fst (st : DecodeState) (c : List Nat) :
    (feedChunk st c).1 =
      (splitNl (st.lineBuf ++ (utf8Decode (st.pending ++ c)).1.map Char.ofNat)).dropLast := rfl

theorem feedChunk_pending (st : DecodeState) (c : List Nat) :
    (feedChunk st c).2.pending = (utf8Decode (st.pending ++ c)).2 := rfl

theorem feedChunk_buf (st : DecodeState) (c : List Nat) :
    (feedChunk st c).2.lineBuf =
      (splitNl (st.lineBuf ++ (utf8Decode (st.pending ++ c)).1.map Char.ofNat)).getLastD [] :=
  rfl

theorem mergeH_split (x t2 : List Char) (h : nlFree x = true) :
    splitNl (x ++ t2) = mergeH x (splitNl t2) := by
  rw [splitNl_append, splitNl_of_nlFree x h]
  rfl

theorem feedChunk_split (st : DecodeState) (a b : List Nat) :
    splitNl (st.lineBuf ++ (utf8Decode (st.pending ++ (a ++ b))).1.map Char.ofNat) =
      (splitNl (st.lineBuf ++ (utf8Decode (st.pending ++ a)).1.map Char.ofNat)).dropLast ++
        mergeH ((splitNl (st.lineBuf ++
            (utf8Decode (st.pending ++ a)).1.map Char.ofNat)).getLastD [])
          (splitNl ((utf8Decode ((utf8Decode (st.pending ++ a)).2 ++ b)).1.map Char.ofNat)) := by
  rw [show st.pending ++ (a ++ b) = (st.pending ++ a) ++ b from by rw [List.append_assoc]]
  rw [utf8Decode_append (st.pending ++ a) b]
  simp only [List.map_append]
  rw [← List.append_assoc]
  rw [splitNl_append]

theorem feedChunk_events (st : DecodeState) (a b : List Nat) :
    (feedChunk st (a ++ b)).1 =
      (feedChunk st a).1 ++ (feedChunk (feedChunk st a).2 b).1 := by
  rw [feedChunk_fst st (a ++ b), feedChunk_split st a b,
    List.dropLast_append_of_ne_nil _ (mergeH_ne_nil _ _),
    feedChunk_fst st a, feedChunk_fst (feedChunk st a).2 b, feedChunk_buf st a,
    feedChunk_pending st a, mergeH_split _ _ (nlFree_getLastD_splitNl _)]

theorem feedChunk_state (st : DecodeState) (a b : List Nat) :
    (feedChunk st (a ++ b)).2 = (feedChunk (feedChunk st a).2 b).2 := by
  apply DecodeState.ext
  · rw [feedChunk_pending st (a ++ b), feedChunk_pending (feedChunk st a).2 b,
      feedChunk_pending st a]
    rw [show st.pending ++ (a ++ b) = (st.pending ++ a) ++ b from by rw [List.append_assoc]]
    rw [utf8Decode_append (st.pending ++ a) b]
  · rw [feedChunk_buf st (a ++ b), feedChunk_buf (feedChunk st a).2 b, feedChunk_buf st a,
      feedChunk_pending st a, feedChunk_split st a b,
      getLastD_append_ne_nil _ _ _ (mergeH_ne_nil _ _),
      mergeH_split _ _ (nlFree_getLastD_splitNl _)]

theorem feedChunk_nil (st : DecodeState) (h1 : utf8Decode st.pending = ([], st.pending))
    (h2 : nlFree st.lineBuf = true) : feedChunk st [] = ([], st) := by
  have e1 : (feedChunk st []).1 = [] := by
    rw [feedChunk_fst st [], List.append_nil, h1]
    simp only [List.map_nil, List.append_nil]
    rw [splitNl_of_nlFree _ h2]
    rfl
  have e2 : (feedChunk st []).2.pending = st.pending := by
    rw [feedChunk_pending st [], List.append_nil, h1]
  have e3 : (feedChunk st []).2.lineBuf = st.lineBuf := by
    rw [feedChunk_buf st [], List.append_nil, h1]
    simp only [List.map_nil, List.append_nil]
    rw [splitNl_of_nlFree _ h2]
    rfl
  calc feedChunk st [] = ((feedChunk st []).1, (feedChunk st []).2) := rfl
    _ = ([], st) := by rw [e1, DecodeState.ext (feedChunk st []).2 st e2 e3]

theorem runFrom_join : ∀ (chunks : List (List Nat)) (st : DecodeState),
    utf8Decode st.pending = ([], st.pending) → nlFree st.lineBuf = true →
    runFrom st chunks =
      ((feedChunk st chunks.flatten).1.filterMap lineEvent, (feedChunk st chunks.flatten).2) := by
  intro chunks
  induction chunks with
  | nil =>
    intro st h1 h2
    rw [show (List.flatten ([] : List (List Nat))) = [] from rfl, feedChunk_nil st h1 h2]
    rfl
  | cons c cs ih =>
    intro st h1 h2
    have hinv1 : utf8Decode (feedChunk st c).2.pending = ([], (feedChunk st c).2.pending) := by
      rw [feedChunk_pending st c]
      exact utf8Decode_leftover _
    have hinv2 : nlFree (feedChunk st c).2.lineBuf = true := by
      rw [feedChunk_buf st c]
      exact nlFree_getLastD_splitNl _
    have hstep : runFrom st (c :: cs) =
        ((feedChunk st c).1.filterMap lineEvent ++ (runFrom (feedChunk st c).2 cs).1,
         (runFrom (feedChunk st c).2 cs).2) := rfl
    rw [hstep, ih _ hinv1 hinv2,
      show (c :: cs).flatten = c ++ cs.flatten from rfl,
      feedChunk_events st c cs.flatten, feedChunk_state st c cs.flatten]
    simp [List.filterMap_append]

/-- C1: chunk invariance.  For every valid byte stream and every partition
of it into chunks (including partitions splitting a multi-byte character or
a payload mid-structure), feeding the chunks sequentially through the
read-loop decoder — streaming byte decode with carry, buffer append, split
on the line terminator, retention of the last incomplete line, final
flush — and classifying each line beginning with the data marker yields the
same ordered sequence of classified events as feeding the entire stream as
one chunk. -/
theorem chunk_invariance (s : List Nat) (chunks : List (List Nat))
    (hvalid : validUtf8 s = true) (hpart : chunks.flatten = s) :
    runStream chunks = runStream [s] := by
  have e : ∀ cks : List (List Nat),
      runStream cks = (runFrom initDecode cks).1 ++ flushEvents (runFrom initDecode cks).2 :=
    fun _ => rfl
  rw [e chunks, e [s],
    runFrom_join chunks initDecode rfl rfl, runFrom_join [s] initDecode rfl rfl, hpart,
    show ([s] : List (List Nat)).flatten = s from by simp]

/-- C1 witness: a concrete valid stream holding a two-byte UTF-8 character,
partitioned so that the character is split across the chunk boundary. -/
theorem chunk_invariance_witness :
    validUtf8 c1Bytes = true ∧ c1Chunks.flatten = c1Bytes ∧
    runStream c1Chunks = runStream [c1Bytes] :=
  ⟨rfl, rfl, chunk_invariance c1Bytes c1Chunks rfl rfl⟩

/- ----------------------------------------------------------------- -/
/- Claim C2: session isolation.                                       -/
/- ----------------------------------------------------------------- -/

theorem obs_applyEvent (s1 s2 : AppState) (e : SSEEvent) (h : obs s1 = obs s2) :
    obs (applyEvent s1 e) = obs (applyEvent s2 e) := by
  have ht : s1.thinking = s2.thinking := congrArg Obs.thinking h
  have ha : s1.apiData = s2.apiData := congrArg Obs.apiData h
  have he : s1.error = s2.error := congrArg Obs.error h
  cases e with
  | resultEv d => simp [applyEvent, obs, ht, ha, he]
  | thinkingEv a b c => simp [applyEvent, obs, ht, ha, he]

theorem obs_lineStep (s1 s2 : AppState) (l : List Char) (h : obs s1 = obs s2) :
    obs (lineStep s1 l) = obs (lineStep s2 l) := by
  rw [lineStep_event, lineStep_event]
  cases he : lineEvent l with
  | none => exact h
  | some e => exact obs_applyEvent s1 s2 e h

theorem obs_stepState (s1 s2 : AppState) (a : SessAction) (h : obs s1 = obs s2) :
    obs (stepState s1 a) = obs (stepState s2 a) := by
  have ht : s1.thinking = s2.thinking := congrArg Obs.thinking h
  have ha : s1.apiData = s2.apiData := congrArg Obs.apiData h
  have he : s1.error = s2.error := congrArg Obs.error h
  cases a with
  | start g => rfl
  | deliver g l => exact obs_lineStep s1 s2 l h
  | finishOk g => simp [stepState, obs, ht, ha, he]
  | finishAbort g => simp [stepState, obs, ht, ha, he]
  | finishErr g => simp [stepState, obs, ht, ha, he]

theorem obs_finishAbort (s : AppState) (g : Nat) :
    obs (stepState s (SessAction.finishAbort g)) = obs s := rfl

theorem valid_after_start : ∀ (pre : List SessAction) (c : Option Nat) (B : Nat)
    (rest : List SessAction), ValidFrom c (pre ++ SessAction.start B :: rest) →
    ValidFrom (some B) rest := by
  intro pre
  induction pre with
  | nil =>
    intro c B rest h
    cases h with
    | start _ _ _ h' => exact h'
  | cons a t ih =>
    intro c B rest h
    cases h with
    | start _ _ _ h' => exact ih _ _ _ h'
    | deliver _ _ _ h' => exact ih _ _ _ h'
    | finishOk _ _ h' => exact ih _ _ _ h'
    | finishErr _ _ h' => exact ih _ _ _ h'
    | finishAbort _ _ _ h' => exact ih _ _ _ h'

theorem obs_fold_filter (B : Nat) : ∀ (l : List SessAction) (s s' : AppState),
    ValidFrom (some B) l → l.all (fun a => !isStart a) = true → obs s = obs s' →
    obs (l.foldl stepState s) =
      obs ((l.filter (fun a => sessionOf a == B)).foldl stepState s') := by
  intro l
  induction l with
  | nil => intro s s' _ _ h; exact h
  | cons a t ih =>
    intro s s' hv hns h
    have hns' : t.all (fun a => !isStart a) = true := by
      simp only [List.all_cons, Bool.and_eq_true] at hns
      exact hns.2
    cases hv with
    | deliver g line rest h' =>
      rw [List.foldl_cons]
      simp only [List.filter_cons]
      rw [if_pos (by simp [sessionOf]), List.foldl_cons]
      exact ih _ _ h' hns' (obs_stepState s s' _ h)
    | finishOk g rest h' =>
      rw [List.foldl_cons]
      simp only [List.filter_cons]
      rw [if_pos (by simp [sessionOf]), List.foldl_cons]
      exact ih _ _ h' hns' (obs_stepState s s' _ h)
    | finishErr g rest h' =>
      rw [List.foldl_cons]
      simp only [List.filter_cons]
      rw [if_pos (by simp [sessionOf]), List.foldl_cons]
      exact ih _ _ h' hns' (obs_stepState s s' _ h)
    | start g rest h' =>
      simp [isStart] at hns
    | finishAbort c g rest h' =>
      rw [List.foldl_cons]
      simp only [List.filter_cons]
      by_cases hg : (sessionOf (SessAction.finishAbort g) == B) = true
      · rw [if_pos hg, List.foldl_cons]
        exact ih _ _ h' hns' (obs_stepState s s' _ h)
      · rw [if_neg hg]
        have hstep : obs (stepState s (SessAction.finishAbort g)) = obs s' := by
          rw [obs_finishAbort]
          exact h
        exact ih _ _ h' hns' hstep

/-- C2: session isolation.  For any event-loop trace consistent with the
transport semantics (a superseded session's transport is aborted on the new
submission, so after session B starts, a stale session can neither deliver
lines nor finish through the `done` or generic-error paths — its only
remaining action is the `AbortError` continuation, whose `name` guard skips
`setError`), the observable state (progress log, result, error) after the
whole trace equals the observable state produced by session B's own actions
alone, replayed from the reset performed when B started: stale deliveries
never mutate the current observables. -/
theorem session_isolation (pre rest : List SessAction) (B : Nat) (s0 : AppState)
    (hv : ValidFrom none (pre ++ SessAction.start B :: rest))
    (hns : rest.all (fun a => !isStart a) = true) :
    obs ((pre ++ SessAction.start B :: rest).foldl stepState s0) =
      obs ((rest.filter (fun a => sessionOf a == B)).foldl stepState
        (stepState (pre.foldl stepState s0) (SessAction.start B))) := by
  rw [List.foldl_append, List.foldl_cons]
  exact obs_fold_filter B rest _ _ (valid_after_start pre none B rest hv) hns rfl

/-- C2 witness: session 0 delivers a line, session 1 starts (aborting 0),
the stale session observes only its abort while session 1 delivers and
finishes; the final observables coincide with replaying only session 1's
actions. -/
theorem session_isolation_witness :
    obs ((c2Pre ++ SessAction.start 1 :: c2Rest).foldl stepState initSession) =
      obs ((c2Rest.filter (fun a => sessionOf a == 1)).foldl stepState
        (stepState (c2Pre.foldl stepState initSession) (SessAction.start 1))) :=
  session_isolation c2Pre c2Rest 1 initSession
    (ValidFrom.start _ _ _ (ValidFrom.deliver _ _ _ (ValidFrom.start _ _ _
      (ValidFrom.finishAbort _ _ _ (ValidFrom.deliver _ _ _
        (ValidFrom.finishOk _ _ (ValidFrom.nil _)))))))
    rfl
